import Mathlib

/-!
# Verification of the lol-html (cool_thing) core

Shallow embedding of the repository's tag-name hash encoder
(`src/tag_name_hash.rs`), the token data model
(`src/tokenizer/outputs/token/mod.rs`), and the tokenizer's cumulative
raw-span invariant, together with proofs of the specification's claims
about them.

Bytes are modelled as `Nat` (the value of the `u8`); the accumulated hash
is a `Nat` standing for the Rust `u64`, with an explicit `% 2 ^ 64` where
the shift could discard high bits.
-/

namespace CoolThing

/-- A byte string: each element is the numeric value of one `u8`. -/
abbrev Bytes := List Nat

/-- Embedding of `update_tag_name_hash` from `src/tag_name_hash.rs`.

The Rust source, on `Some(h)`, first checks `h >> (64 - 5) == 0`; if the
check fails the hash is invalidated (`None`).  Otherwise it matches the
byte: ASCII alpha (`b'a'...b'z' | b'A'...b'Z'`) yields
`Some((h << 5) | (ch & 0x1F) + 5)`, an ASCII digit `b'1'...b'6'` yields
`Some((h << 5) | (ch & 0x0F) - 1)`, and anything else yields `None`.
`h << 5` on `u64` truncates to 64 bits, written here as `% 2 ^ 64`
(the guard makes the truncation vacuous). -/
def update_tag_name_hash (hash : Option Nat) (ch : Nat) : Option Nat :=
  match hash with
  | none => none
  | some h =>
    if h >>> (64 - 5) = 0 then
      if (97 ≤ ch ∧ ch ≤ 122) ∨ (65 ≤ ch ∧ ch ≤ 90) then
        some (((h <<< 5) % 2 ^ 64) ||| ((ch &&& 0x1F) + 5))
      else if 49 ≤ ch ∧ ch ≤ 54 then
        some (((h <<< 5) % 2 ^ 64) ||| ((ch &&& 0x0F) - 1))
      else none
    else none

/-- Embedding of `get_tag_name_hash` from `src/tag_name_hash.rs`:
fold `update_tag_name_hash` over the bytes of the name, starting
from `Some(0)`. -/
def get_tag_name_hash (name : Bytes) : Option Nat :=
  name.foldl update_tag_name_hash (some 0)

/-- `b` is an ASCII letter, i.e. matches the Rust range pattern
`b'a'...b'z' | b'A'...b'Z'`. -/
def isAlphaByte (b : Nat) : Bool :=
  (97 ≤ b && b ≤ 122) || (65 ≤ b && b ≤ 90)

/-- `b` is an ASCII digit `'1'..'6'`, i.e. matches `b'1'...b'6'`. -/
def isDigitByte (b : Nat) : Bool :=
  49 ≤ b && b ≤ 54

/-- `b` is a byte the encoder can encode: in `[A-Za-z1-6]`. -/
def validByte (b : Nat) : Bool :=
  isAlphaByte b || isDigitByte b

/-- The 5-bit symbol the encoder assigns to a valid byte: letters map to
`(b & 0x1F) + 5` (6–31), digits `'1'..'6'` map to `(b & 0x0F) - 1` (0–5). -/
def symVal (b : Nat) : Nat :=
  if isAlphaByte b then (b &&& 0x1F) + 5 else (b &&& 0x0F) - 1

/-- The mathematical base-32 accumulator: fold each symbol into the low
5 bits after shifting the previous content left by 5. -/
def codeFrom (h : Nat) (name : Bytes) : Nat :=
  name.foldl (fun a b => a * 32 + symVal b) h

/-- ASCII case folding on a byte: upper-case letters map to their
lower-case counterpart, everything else is unchanged. -/
def foldCaseByte (b : Nat) : Nat :=
  if 65 ≤ b ∧ b ≤ 90 then b + 32 else b

/-- The head of the name, when present, is an ASCII letter (standard tag
names cannot start with a digit, which the encoder's comment relies on). -/
def headIsAlpha (s : Bytes) : Bool :=
  match s with
  | [] => true
  | b :: _ => isAlphaByte b

/- ### Basic lemmas about the encoder -/

lemma update_none (b : Nat) : update_tag_name_hash none b = none := rfl

lemma foldl_update_none (name : Bytes) :
    name.foldl update_tag_name_hash none = none := by
  induction name with
  | nil => rfl
  | cons b rest ih => simpa [update_tag_name_hash] using ih

lemma shiftRight59_eq_zero (h : Nat) (hh : h < 2 ^ 59) : h >>> (64 - 5) = 0 := by
  show h >>> 59 = 0
  rw [Nat.shiftRight_eq_div_pow]
  exact Nat.div_eq_of_lt hh

lemma shiftRight59_ne_zero (h : Nat) (hh : 2 ^ 59 ≤ h) : h >>> (64 - 5) ≠ 0 := by
  show h >>> 59 ≠ 0
  rw [Nat.shiftRight_eq_div_pow]
  have : 1 ≤ h / 2 ^ 59 := (Nat.le_div_iff_mul_le (by positivity)).2 (by omega)
  omega

lemma and31_eq_mod (b : Nat) : b &&& 0x1F = b % 32 := by
  have := Nat.and_pow_two_sub_one_eq_mod b 5
  norm_num at this
  exact this

lemma and15_eq_mod (b : Nat) : b &&& 0x0F = b % 16 := by
  have := Nat.and_pow_two_sub_one_eq_mod b 4
  norm_num at this
  exact this

lemma symVal_lt_32 (b : Nat) (_hb : validByte b = true) : symVal b < 32 := by
  unfold symVal
  by_cases ha : isAlphaByte b = true
  · simp only [ha, if_pos]
    rw [and31_eq_mod]
    simp only [isAlphaByte, Bool.or_eq_true, Bool.and_eq_true, decide_eq_true_eq] at ha
    omega
  · simp only [ha, if_neg, Bool.not_eq_true]
    rw [and15_eq_mod]
    omega

lemma symVal_ge_6_of_alpha (b : Nat) (hb : isAlphaByte b = true) : 6 ≤ symVal b := by
  unfold symVal
  simp only [hb, if_pos]
  rw [and31_eq_mod]
  simp only [isAlphaByte, Bool.or_eq_true, Bool.and_eq_true, decide_eq_true_eq] at hb
  omega

lemma or_low_eq_add (h s : Nat) (hs : s < 32) : (h * 32) ||| s = h * 32 + s := by
  have := Nat.mul_add_lt_is_or (i := 5) (b := s) (by omega) h
  calc h * 32 ||| s = 2 ^ 5 * h ||| s := by ring_nf
    _ = 2 ^ 5 * h + s := (this).symm
    _ = h * 32 + s := by ring

/-- On a live hash below the capacity bound, a valid byte appends its
symbol: the result is `h * 32 + symVal b`. -/
lemma update_some_valid (h b : Nat) (hh : h < 2 ^ 59) (hb : validByte b = true) :
    update_tag_name_hash (some h) b = some (h * 32 + symVal b) := by
  have hsh : (h <<< 5) % 2 ^ 64 = h * 32 := by
    rw [Nat.shiftLeft_eq]
    have h1 : h * 2 ^ 5 < 2 ^ 64 := by
      calc h * 2 ^ 5 < 2 ^ 59 * 2 ^ 5 := by
            have : (0 : Nat) < 2 ^ 5 := by norm_num
            exact (Nat.mul_lt_mul_right this).2 hh
        _ ≤ 2 ^ 64 := by norm_num
    rw [Nat.mod_eq_of_lt h1]
    norm_num
  have hlt := symVal_lt_32 b hb
  simp only [update_tag_name_hash]
  rw [if_pos (shiftRight59_eq_zero h hh)]
  by_cases ha : isAlphaByte b = true
  · have hcond : (97 ≤ b ∧ b ≤ 122) ∨ (65 ≤ b ∧ b ≤ 90) := by
      simp only [isAlphaByte, Bool.or_eq_true, Bool.and_eq_true, decide_eq_true_eq] at ha
      exact ha
    rw [if_pos hcond, hsh]
    have : symVal b = (b &&& 0x1F) + 5 := by simp [symVal, ha]
    rw [or_low_eq_add h _ (this ▸ hlt), this]
  · have hd : isDigitByte b = true := by
      simp only [validByte, Bool.or_eq_true] at hb
      tauto
    have hcond : ¬ ((97 ≤ b ∧ b ≤ 122) ∨ (65 ≤ b ∧ b ≤ 90)) := by
      simp only [isAlphaByte, Bool.or_eq_true, Bool.and_eq_true, decide_eq_true_eq,
        not_or] at ha ⊢
      omega
    have hdig : 49 ≤ b ∧ b ≤ 54 := by
      simp only [isDigitByte, Bool.and_eq_true, decide_eq_true_eq] at hd
      exact hd
    rw [if_neg hcond, if_pos hdig, hsh]
    have : symVal b = (b &&& 0x0F) - 1 := by simp [symVal, ha]
    rw [or_low_eq_add h _ (this ▸ hlt), this]

/-- An invalid byte (outside `[A-Za-z1-6]`) invalidates any live hash. -/
lemma update_invalid (h b : Nat) (hb : validByte b = false) :
    update_tag_name_hash (some h) b = none := by
  simp only [validByte, isAlphaByte, isDigitByte, Bool.or_eq_false_iff,
    Bool.and_eq_false_iff, decide_eq_false_iff_not, not_le, Bool.or_eq_false_iff] at hb
  simp only [update_tag_name_hash]
  by_cases hg : h >>> (64 - 5) = 0
  · rw [if_pos hg, if_neg (by omega), if_neg (by omega)]
  · rw [if_neg hg]

/-- A hash whose top 5 bits are non-zero is invalidated by any byte. -/
lemma update_overflow (h b : Nat) (hh : 2 ^ 59 ≤ h) :
    update_tag_name_hash (some h) b = none := by
  simp only [update_tag_name_hash]
  rw [if_neg (shiftRight59_ne_zero h hh)]

/- ### Running the encoder over a whole valid name -/

/-- Running the encoder from a live accumulator `h` over a name of valid
bytes succeeds and computes the base-32 fold, provided the accumulator
stays below the capacity bound throughout; `(h + 1) * 32 ^ (len - 1) ≤ 2 ^ 59`
guarantees exactly that. -/
lemma foldl_update_valid :
    ∀ (name : Bytes) (h : Nat), (∀ b ∈ name, validByte b = true) →
      (h + 1) * 32 ^ (name.length - 1) ≤ 2 ^ 59 →
      name.foldl update_tag_name_hash (some h) = some (codeFrom h name)
  | [], h, _, _ => rfl
  | b :: rest, h, hv, hbound => by
    have hb : validByte b = true := hv b (List.mem_cons_self b rest)
    have hh : h < 2 ^ 59 := by
      have h32 : 1 ≤ 32 ^ ((b :: rest).length - 1) := Nat.one_le_pow _ _ (by norm_num)
      nlinarith
    have hstep := update_some_valid h b hh hb
    have hs := symVal_lt_32 b hb
    simp only [List.foldl_cons, hstep]
    have hcode : codeFrom h (b :: rest) = codeFrom (h * 32 + symVal b) rest := rfl
    rw [hcode]
    cases rest with
    | nil => rfl
    | cons c rest' =>
      apply foldl_update_valid _ _ (fun x hx => hv x (List.mem_cons_of_mem b hx))
      have hlen : (b :: c :: rest').length - 1 = ((c :: rest').length - 1) + 1 := by
        simp
      rw [hlen, pow_succ] at hbound
      have : h * 32 + symVal b + 1 ≤ (h + 1) * 32 := by nlinarith
      calc (h * 32 + symVal b + 1) * 32 ^ ((c :: rest').length - 1)
          ≤ ((h + 1) * 32) * 32 ^ ((c :: rest').length - 1) :=
            Nat.mul_le_mul_right _ this
        _ = (h + 1) * (32 ^ ((c :: rest').length - 1) * 32) := by ring
        _ ≤ 2 ^ 59 := hbound

/-- A name of at most 12 valid bytes is fully encoded to its base-32 fold. -/
lemma get_valid (name : Bytes) (hv : ∀ b ∈ name, validByte b = true)
    (hlen : name.length ≤ 12) :
    get_tag_name_hash name = some (codeFrom 0 name) := by
  apply foldl_update_valid name 0 hv
  have h1 : 32 ^ (name.length - 1) ≤ 32 ^ 11 :=
    Nat.pow_le_pow_right (by norm_num) (by omega)
  calc (0 + 1) * 32 ^ (name.length - 1) = 32 ^ (name.length - 1) := by ring
    _ ≤ 32 ^ 11 := h1
    _ ≤ 2 ^ 59 := by norm_num

/- ### Bounds on the base-32 fold -/

lemma codeFrom_lower :
    ∀ (name : Bytes) (h : Nat), h * 32 ^ name.length ≤ codeFrom h name
  | [], h => by simp [codeFrom]
  | b :: rest, h => by
    have ih := codeFrom_lower rest (h * 32 + symVal b)
    have hcode : codeFrom h (b :: rest) = codeFrom (h * 32 + symVal b) rest := rfl
    rw [hcode]
    calc h * 32 ^ (b :: rest).length = (h * 32) * 32 ^ rest.length := by
          simp [pow_succ]; ring
      _ ≤ (h * 32 + symVal b) * 32 ^ rest.length := Nat.mul_le_mul_right _ (by omega)
      _ ≤ codeFrom (h * 32 + symVal b) rest := ih

lemma codeFrom_upper :
    ∀ (name : Bytes) (h : Nat), (∀ b ∈ name, validByte b = true) →
      codeFrom h name < (h + 1) * 32 ^ name.length
  | [], h, _ => by simp [codeFrom]
  | b :: rest, h, hv => by
    have hb : validByte b = true := hv b (List.mem_cons_self b rest)
    have hs := symVal_lt_32 b hb
    have ih := codeFrom_upper rest (h * 32 + symVal b)
      (fun x hx => hv x (List.mem_cons_of_mem b hx))
    have hcode : codeFrom h (b :: rest) = codeFrom (h * 32 + symVal b) rest := rfl
    rw [hcode]
    calc codeFrom (h * 32 + symVal b) rest
        < (h * 32 + symVal b + 1) * 32 ^ rest.length := ih
      _ ≤ ((h + 1) * 32) * 32 ^ rest.length := Nat.mul_le_mul_right _ (by omega)
      _ = (h + 1) * 32 ^ (b :: rest).length := by simp [pow_succ]; ring

/-- The base-32 fold is injective (in the accumulator and in the symbol
sequence) for names of equal length made of valid bytes. -/
lemma codeFrom_inj :
    ∀ (s t : Bytes) (h₁ h₂ : Nat), s.length = t.length →
      (∀ b ∈ s, validByte b = true) → (∀ b ∈ t, validByte b = true) →
      codeFrom h₁ s = codeFrom h₂ t →
      h₁ = h₂ ∧ s.map symVal = t.map symVal
  | [], [], h₁, h₂, _, _, _, heq => by
    simp only [codeFrom, List.foldl_nil] at heq
    exact ⟨heq, rfl⟩
  | [], t :: ts, h₁, h₂, hlen, _, _, _ => by simp at hlen
  | s :: ss, [], h₁, h₂, hlen, _, _, _ => by simp at hlen
  | a :: ss, b :: ts, h₁, h₂, hlen, hvs, hvt, heq => by
    have ha : validByte a = true := hvs a (List.mem_cons_self a ss)
    have hb : validByte b = true := hvt b (List.mem_cons_self b ts)
    have hsa := symVal_lt_32 a ha
    have hsb := symVal_lt_32 b hb
    have hlen' : ss.length = ts.length := by simpa using hlen
    have heq' : codeFrom (h₁ * 32 + symVal a) ss = codeFrom (h₂ * 32 + symVal b) ts := heq
    obtain ⟨hacc, hmap⟩ := codeFrom_inj ss ts _ _ hlen'
      (fun x hx => hvs x (List.mem_cons_of_mem a hx))
      (fun x hx => hvt x (List.mem_cons_of_mem b hx)) heq'
    have h1 : h₁ = h₂ := by omega
    have h2 : symVal a = symVal b := by omega
    exact ⟨h1, by simp [List.map_cons, h2, hmap]⟩

/- ### Inverting a successful update -/

/-- If one update step on a live hash produced a live hash, then the byte
was valid, the old hash was below the capacity bound, and the step
appended the byte's symbol. -/
lemma update_step_inv (h b r : Nat)
    (hstep : update_tag_name_hash (some h) b = some r) :
    r = h * 32 + symVal b ∧ validByte b = true ∧ h < 2 ^ 59 := by
  by_cases hb : validByte b = true
  · by_cases hh : h < 2 ^ 59
    · rw [update_some_valid h b hh hb] at hstep
      exact ⟨by injection hstep with h'; omega, hb, hh⟩
    · rw [update_overflow h b (by omega)] at hstep
      cases hstep
  · rw [update_invalid h b (by simpa using hb)] at hstep
    cases hstep

/-- If the whole run from a live accumulator succeeded, the result is at
least `h * 32 ^ len`: every step multiplies the accumulator by 32. -/
lemma foldl_update_some_lower :
    ∀ (name : Bytes) (h r : Nat),
      name.foldl update_tag_name_hash (some h) = some r →
      h * 32 ^ name.length ≤ r
  | [], h, r, hrun => by
    simp only [List.foldl_nil] at hrun
    injection hrun with h'
    simp [h']
  | b :: rest, h, r, hrun => by
    simp only [List.foldl_cons] at hrun
    cases hstep : update_tag_name_hash (some h) b with
    | none => rw [hstep, foldl_update_none] at hrun; cases hrun
    | some h' =>
      rw [hstep] at hrun
      obtain ⟨hval, _, _⟩ := update_step_inv h b h' hstep
      have ih := foldl_update_some_lower rest h' r hrun
      calc h * 32 ^ (b :: rest).length = (h * 32) * 32 ^ rest.length := by
            simp [pow_succ]; ring
        _ ≤ h' * 32 ^ rest.length := Nat.mul_le_mul_right _ (by omega)
        _ ≤ r := ih

/-- A valid byte other than `'1'` has a non-zero symbol. -/
lemma symVal_pos_of_ne_one (b : Nat) (hb : validByte b = true) (hne : b ≠ 49) :
    1 ≤ symVal b := by
  by_cases ha : isAlphaByte b = true
  · exact le_trans (by norm_num) (symVal_ge_6_of_alpha b ha)
  · have hd : isDigitByte b = true := by
      simp only [validByte, Bool.or_eq_true] at hb
      tauto
    simp only [isDigitByte, Bool.and_eq_true, decide_eq_true_eq] at hd
    unfold symVal
    simp only [ha, if_neg, Bool.not_eq_true]
    rw [and15_eq_mod]
    omega

/-- Variant of `update_tag_name_hash` that makes the Rust debug-mode panic
conditions explicit instead of assuming them away: the only fallible
operation reachable in the body is the subtraction `(ch as u64 & 0x0F) - 1`
in the digit branch (underflow would panic).  The two shifts have constant
amount `5 < 64` and `(ch & 0x1F) + 5 ≤ 36` cannot overflow `u64`, so none
of them can panic on any input. -/
def update_tag_name_hash_checked (hash : Option Nat) (ch : Nat) :
    Except String (Option Nat) :=
  match hash with
  | none => Except.ok none
  | some h =>
    if h >>> (64 - 5) = 0 then
      if (97 ≤ ch ∧ ch ≤ 122) ∨ (65 ≤ ch ∧ ch ≤ 90) then
        Except.ok (some (((h <<< 5) % 2 ^ 64) ||| ((ch &&& 0x1F) + 5)))
      else if 49 ≤ ch ∧ ch ≤ 54 then
        if ch &&& 0x0F = 0 then Except.error "attempt to subtract with overflow"
        else Except.ok (some (((h <<< 5) % 2 ^ 64) ||| ((ch &&& 0x0F) - 1)))
      else Except.ok none
    else Except.ok none

/- ### Claim theorems for the encoder -/

/-- C10: `update_tag_name_hash` is total and panic-free for every input
pair: the checked variant (which reports any reachable Rust panic as an
error) always returns `ok` with exactly the value the plain embedding
computes — the subtraction in the digit branch never underflows because
every byte in `'1'..'6'` has a low nibble of at least 1, and both shifts
are by the constant 5, which is less than the 64-bit width. -/
theorem update_hash_total_panic_free (hash : Option Nat) (ch : Nat) :
    update_tag_name_hash_checked hash ch =
      Except.ok (update_tag_name_hash hash ch) := by
  cases hash with
  | none => rfl
  | some h =>
    simp only [update_tag_name_hash_checked, update_tag_name_hash]
    by_cases hg : h >>> (64 - 5) = 0
    · rw [if_pos hg, if_pos hg]
      by_cases ha : (97 ≤ ch ∧ ch ≤ 122) ∨ (65 ≤ ch ∧ ch ≤ 90)
      · rw [if_pos ha, if_pos ha]
      · rw [if_neg ha, if_neg ha]
        by_cases hd : 49 ≤ ch ∧ ch ≤ 54
        · rw [if_pos hd, if_pos hd]
          have hnz : ¬ ch &&& 0x0F = 0 := by rw [and15_eq_mod]; omega
          rw [if_neg hnz]
        · rw [if_neg hd, if_neg hd]
    · rw [if_neg hg, if_neg hg]

/-- C6: once the incremental encoder is invalid it stays invalid:
`update_tag_name_hash none b = none` for every byte `b`, so within one
name no sequence of further bytes can turn a `none` hash back into
`some`. -/
theorem invalid_hash_absorbing :
    (∀ b : Nat, update_tag_name_hash none b = none) ∧
    (∀ name : Bytes, name.foldl update_tag_name_hash none = none) :=
  ⟨fun _ => rfl, foldl_update_none⟩

/-- C9: the empty tag name is treated as encodable —
`get_tag_name_hash [] = some 0` — and the single-digit name `"1"` also
yields `some 0`, so the zero code does not uniquely identify a name at
the encoder's public interface. -/
theorem zero_code_shared_by_empty_and_one :
    get_tag_name_hash [] = some 0 ∧ get_tag_name_hash [49] = some 0 ∧
    ([] : Bytes) ≠ [49] := by decide

/-- C5: unencodable input is an expected `none` outcome, not an error:
`get_tag_name_hash name` is `none` whenever `name` contains any byte
outside `[A-Za-z1-6]`, and is `some` for every name of length at most 12
whose bytes are all in `[A-Za-z1-6]`. -/
theorem unencodable_none_encodable_some :
    (∀ (name : Bytes) (b : Nat), b ∈ name → validByte b = false →
      get_tag_name_hash name = none) ∧
    (∀ name : Bytes, name.length ≤ 12 → (∀ b ∈ name, validByte b = true) →
      ∃ c, get_tag_name_hash name = some c) := by
  constructor
  · intro name b hmem hinv
    obtain ⟨u, v, rfl⟩ := List.append_of_mem hmem
    unfold get_tag_name_hash
    rw [List.foldl_append]
    cases hres : u.foldl update_tag_name_hash (some 0) with
    | none => exact foldl_update_none _
    | some h =>
      simp only [List.foldl_cons, update_invalid h b hinv, foldl_update_none]
  · intro name hlen hv
    exact ⟨codeFrom 0 name, get_valid name hv hlen⟩

/-- Witness for C5: the name `"<"` (byte 60, not in `[A-Za-z1-6]`) is
unencodable, while `"div"` is encodable. -/
theorem unencodable_none_encodable_some_witness :
    get_tag_name_hash [60] = none ∧
    ∃ c, get_tag_name_hash [100, 105, 118] = some c :=
  ⟨unencodable_none_encodable_some.1 [60] 60 (by decide) (by decide),
   unencodable_none_encodable_some.2 [100, 105, 118] (by decide) (by decide)⟩

/-- C3 (amended): once the accumulated code's top 5 bits are non-zero,
`update_tag_name_hash` returns `none` for every next byte; and every name
of more than 13 bytes drawn from `[A-Za-z2-6]` (valid bytes whose symbol
is non-zero, i.e. excluding the digit `'1'`) hashes to `none`.  The
original 12-symbol length bound does not hold for names involving the
digit `'1'`, whose symbol is the 5-bit pattern 0. -/
theorem capacity_and_top_bits :
    (∀ (h b : Nat), h >>> (64 - 5) ≠ 0 →
      update_tag_name_hash (some h) b = none) ∧
    (∀ name : Bytes, 13 < name.length →
      (∀ b ∈ name, validByte b = true ∧ b ≠ 49) →
      get_tag_name_hash name = none) := by
  constructor
  · intro h b hne
    apply update_overflow
    by_contra hlt
    exact hne (shiftRight59_eq_zero h (by omega))
  · intro name hlen hv
    cases hres : get_tag_name_hash name with
    | none => rfl
    | some r =>
      exfalso
      have key : (name.take 13 ++ name.drop 13).foldl update_tag_name_hash
          (some 0) = some r := by
        rw [List.take_append_drop]; exact hres
      rw [List.foldl_append] at key
      cases hinner : (name.take 13).foldl update_tag_name_hash (some 0) with
      | none => rw [hinner, foldl_update_none] at key; cases key
      | some m =>
        rw [hinner] at key
        have htklen : (name.take 13).length = 13 := by
          rw [List.length_take]; omega
        have hm : 32 ^ 12 ≤ m := by
          cases h13 : name.take 13 with
          | nil => rw [h13] at htklen; simp at htklen
          | cons b rest =>
            rw [h13] at hinner htklen
            simp only [List.foldl_cons] at hinner
            cases hstep : update_tag_name_hash (some 0) b with
            | none => rw [hstep, foldl_update_none] at hinner; cases hinner
            | some h₁ =>
              rw [hstep] at hinner
              obtain ⟨heq, hvb, _⟩ := update_step_inv 0 b h₁ hstep
              have hbmem : b ∈ name :=
                List.take_subset 13 name (h13 ▸ List.mem_cons_self b rest)
              have hs1 : 1 ≤ symVal b :=
                symVal_pos_of_ne_one b hvb (hv b hbmem).2
              have hlow := foldl_update_some_lower rest h₁ m hinner
              have hrlen : rest.length = 12 := by simpa using htklen
              calc (32 : Nat) ^ 12 = 1 * 32 ^ 12 := by ring
                _ ≤ h₁ * 32 ^ rest.length := by
                    rw [hrlen]; exact Nat.mul_le_mul_right _ (by omega)
                _ ≤ m := hlow
        cases hdrop : name.drop 13 with
        | nil =>
          have : name.length ≤ 13 := by
            have := congrArg List.length hdrop
            simp only [List.length_drop, List.length_nil] at this
            omega
          omega
        | cons c cs =>
          rw [hdrop] at key
          simp only [List.foldl_cons] at key
          rw [update_overflow m c (by
            calc (2 : Nat) ^ 59 ≤ 32 ^ 12 := by norm_num
              _ ≤ m := hm)] at key
          rw [foldl_update_none] at key
          cases key

/-- Counterexample for C3 as stated: the 13-byte name `"1111111111111"`
consists only of bytes in `[A-Za-z1-6]`, is longer than 12 bytes, and yet
hashes to `some 0`, because each `'1'` contributes the all-zero 5-bit
symbol and never makes the top 5 bits non-zero. -/
theorem capacity_and_top_bits_cex :
    12 < (List.replicate 13 49).length ∧
    (∀ b ∈ List.replicate 13 49, validByte b = true) ∧
    get_tag_name_hash (List.replicate 13 49) = some 0 := by decide

/-- Witness for C3: a saturated hash (top 5 bits non-zero) rejects the
byte `'a'`, and the 14-letter name `"aaaaaaaaaaaaaa"` hashes to `none`. -/
theorem capacity_and_top_bits_witness :
    update_tag_name_hash (some (2 ^ 59)) 97 = none ∧
    get_tag_name_hash (List.replicate 14 97) = none :=
  ⟨capacity_and_top_bits.1 (2 ^ 59) 97 (by decide),
   capacity_and_top_bits.2 (List.replicate 14 97) (by decide) (by decide)⟩

/- ### Injectivity up to case -/

lemma isAlphaByte_range (b : Nat) (ha : isAlphaByte b = true) :
    (97 ≤ b ∧ b ≤ 122) ∨ (65 ≤ b ∧ b ≤ 90) := by
  simpa only [isAlphaByte, Bool.or_eq_true, Bool.and_eq_true,
    decide_eq_true_eq] using ha

lemma digit_range (b : Nat) (hb : validByte b = true)
    (ha : isAlphaByte b = false) : 49 ≤ b ∧ b ≤ 54 := by
  simp only [validByte, Bool.or_eq_true] at hb
  rcases hb with h | h
  · rw [ha] at h; cases h
  · simpa only [isDigitByte, Bool.and_eq_true, decide_eq_true_eq] using h

lemma symVal_alpha (b : Nat) (ha : isAlphaByte b = true) :
    symVal b = b % 32 + 5 := by
  simp [symVal, ha, and31_eq_mod]

lemma symVal_digit (b : Nat) (ha : isAlphaByte b = false) :
    symVal b = b % 16 - 1 := by
  simp [symVal, ha, and15_eq_mod]

/-- Two valid bytes with the same symbol are the same letter up to ASCII
case, or the same digit. -/
lemma symVal_determines_foldCase (b b' : Nat) (hb : validByte b = true)
    (hb' : validByte b' = true) (heq : symVal b = symVal b') :
    foldCaseByte b = foldCaseByte b' := by
  unfold foldCaseByte
  by_cases ha : isAlphaByte b = true <;> by_cases ha' : isAlphaByte b' = true
  · have r1 := isAlphaByte_range b ha
    have r2 := isAlphaByte_range b' ha'
    rw [symVal_alpha b ha, symVal_alpha b' ha'] at heq
    split_ifs <;> omega
  · have r1 := isAlphaByte_range b ha
    have r2 := digit_range b' hb' (by simpa using ha')
    rw [symVal_alpha b ha, symVal_digit b' (by simpa using ha')] at heq
    omega
  · have r1 := digit_range b hb (by simpa using ha)
    have r2 := isAlphaByte_range b' ha'
    rw [symVal_digit b (by simpa using ha), symVal_alpha b' ha'] at heq
    omega
  · have r1 := digit_range b hb (by simpa using ha)
    have r2 := digit_range b' hb' (by simpa using ha')
    rw [symVal_digit b (by simpa using ha),
      symVal_digit b' (by simpa using ha')] at heq
    split_ifs <;> omega

lemma map_symVal_to_map_foldCase :
    ∀ (s t : Bytes), (∀ b ∈ s, validByte b = true) →
      (∀ b ∈ t, validByte b = true) →
      s.map symVal = t.map symVal → s.map foldCaseByte = t.map foldCaseByte
  | [], [], _, _, _ => rfl
  | [], _ :: _, _, _, h => by simp at h
  | _ :: _, [], _, _, h => by simp at h
  | a :: ss, b :: ts, hs, ht, h => by
    simp only [List.map_cons, List.cons.injEq] at h ⊢
    refine ⟨symVal_determines_foldCase a b (hs a (List.mem_cons_self a ss))
      (ht b (List.mem_cons_self b ts)) h.1, ?_⟩
    exact map_symVal_to_map_foldCase ss ts
      (fun x hx => hs x (List.mem_cons_of_mem a hx))
      (fun x hx => ht x (List.mem_cons_of_mem b hx)) h.2

/-- A shorter valid name has a strictly smaller code than any longer valid
name that starts with a letter: the letter head contributes at least
symbol 6 at the most significant position. -/
lemma code_lt_of_shorter (s t : Bytes)
    (hvs : ∀ b ∈ s, validByte b = true) (_hvt : ∀ b ∈ t, validByte b = true)
    (hht : headIsAlpha t = true) (hlt : s.length < t.length) :
    codeFrom 0 s < codeFrom 0 t := by
  cases t with
  | nil => simp at hlt
  | cons b ts =>
    have hb : isAlphaByte b = true := by simpa [headIsAlpha] using hht
    have h6 : 6 ≤ symVal b := symVal_ge_6_of_alpha b hb
    have hup : codeFrom 0 s < (0 + 1) * 32 ^ s.length := codeFrom_upper s 0 hvs
    have hlow := codeFrom_lower ts (symVal b)
    have h0 : codeFrom 0 (b :: ts) = codeFrom (symVal b) ts := by
      simp [codeFrom]
    have hsl : s.length ≤ ts.length := by
      simp only [List.length_cons] at hlt; omega
    calc codeFrom 0 s < (0 + 1) * 32 ^ s.length := hup
      _ = 32 ^ s.length := by ring
      _ ≤ 32 ^ ts.length := Nat.pow_le_pow_right (by norm_num) hsl
      _ ≤ symVal b * 32 ^ ts.length := by
          have : 1 * 32 ^ ts.length ≤ symVal b * 32 ^ ts.length :=
            Nat.mul_le_mul_right _ (by omega)
          omega
      _ ≤ codeFrom (symVal b) ts := hlow
      _ = codeFrom 0 (b :: ts) := h0.symm

/-- C1 (amended): the encoder is injective up to ASCII case on names of at
most 12 bytes over `[A-Za-z1-6]` that do not start with a digit: whenever
two such names receive the same (necessarily `some`) code, they are equal
after case folding.  As stated, with digit-initial names allowed, the
claim fails (`"a"` and `"1a"` collide), and byte-distinct case variants
such as `"A"`/`"a"` also collide by design. -/
theorem tag_code_injective_upto_case (s t : Bytes)
    (hvs : ∀ b ∈ s, validByte b = true) (hvt : ∀ b ∈ t, validByte b = true)
    (hls : s.length ≤ 12) (hlt : t.length ≤ 12)
    (hhs : headIsAlpha s = true) (hht : headIsAlpha t = true)
    (heq : get_tag_name_hash s = get_tag_name_hash t) :
    s.map foldCaseByte = t.map foldCaseByte := by
  rw [get_valid s hvs hls, get_valid t hvt hlt] at heq
  have hcode : codeFrom 0 s = codeFrom 0 t := by injection heq
  have hlen : s.length = t.length := by
    rcases lt_trichotomy s.length t.length with h | h | h
    · exact absurd hcode (ne_of_lt (code_lt_of_shorter s t hvs hvt hht h))
    · exact h
    · exact absurd hcode (ne_of_gt (code_lt_of_shorter t s hvt hvs hhs h))
  obtain ⟨-, hmap⟩ := codeFrom_inj s t 0 0 hlen hvs hvt hcode
  exact map_symVal_to_map_foldCase s t hvs hvt hmap

/-- Counterexample for C1 as stated: `"a"` and `"1a"` are distinct names
of length at most 12 over `[A-Za-z1-6]`, both fully encodable, yet they
receive the same code 6 (the leading `'1'` contributes only zero bits);
likewise the case variants `"A"` and `"a"` are byte-distinct but receive
the same code. -/
theorem tag_code_injective_upto_case_cex :
    get_tag_name_hash [97] = get_tag_name_hash [49, 97] ∧
    ([97] : Bytes) ≠ [49, 97] ∧
    get_tag_name_hash [97] = some 6 ∧
    (∀ b ∈ ([49, 97] : Bytes), validByte b = true) ∧
    get_tag_name_hash [65] = get_tag_name_hash [97] ∧
    ([65] : Bytes) ≠ [97] := by decide

/-- Witness for C1: at the concrete names `"SVG"` and `"svg"`, which get
equal codes, the conclusion holds — they fold to the same lower-case
bytes. -/
theorem tag_code_injective_upto_case_witness :
    List.map foldCaseByte [83, 86, 71] = List.map foldCaseByte [115, 118, 103] :=
  tag_code_injective_upto_case [83, 86, 71] [115, 118, 103] (by decide)
    (by decide) (by decide) (by decide) (by decide) (by decide) (by decide)

/- ### Case insensitivity -/

/-- `b'` is `b` itself or `b` with its ASCII letter case flipped. -/
def byteCaseEq (b b' : Nat) : Prop :=
  b' = b ∨ (65 ≤ b ∧ b ≤ 90 ∧ b' = b + 32) ∨ (97 ≤ b ∧ b ≤ 122 ∧ b' = b - 32)

lemma update_byteCaseEq (acc : Option Nat) (b b' : Nat) (h : byteCaseEq b b') :
    update_tag_name_hash acc b = update_tag_name_hash acc b' := by
  rcases h with rfl | ⟨h1, h2, rfl⟩ | ⟨h1, h2, rfl⟩
  · rfl
  · cases acc with
    | none => rfl
    | some a =>
      simp only [update_tag_name_hash]
      by_cases hg : a >>> (64 - 5) = 0
      · rw [if_pos hg, if_pos hg, if_pos (Or.inr ⟨h1, h2⟩),
          if_pos (Or.inl ⟨by omega, by omega⟩)]
        have hand : b &&& 0x1F = (b + 32) &&& 0x1F := by
          rw [and31_eq_mod, and31_eq_mod]; omega
        rw [hand]
      · rw [if_neg hg, if_neg hg]
  · cases acc with
    | none => rfl
    | some a =>
      simp only [update_tag_name_hash]
      by_cases hg : a >>> (64 - 5) = 0
      · rw [if_pos hg, if_pos hg, if_pos (Or.inl ⟨h1, h2⟩),
          if_pos (Or.inr ⟨by omega, by omega⟩)]
        have hand : b &&& 0x1F = (b - 32) &&& 0x1F := by
          rw [and31_eq_mod, and31_eq_mod]; omega
        rw [hand]
      · rw [if_neg hg, if_neg hg]

/-- C7: case insensitivity — the encoder folds ASCII letter case, so
replacing any ASCII letters of a byte string by their opposite-case
counterparts leaves `get_tag_name_hash` unchanged. -/
theorem tag_hash_case_insensitive (s t : Bytes)
    (h : List.Forall₂ byteCaseEq s t) :
    get_tag_name_hash s = get_tag_name_hash t := by
  unfold get_tag_name_hash
  have H : ∀ acc : Option Nat,
      s.foldl update_tag_name_hash acc = t.foldl update_tag_name_hash acc := by
    induction h with
    | nil => intro acc; rfl
    | cons hab _ ih =>
      intro acc
      simp only [List.foldl_cons]
      rw [update_byteCaseEq acc _ _ hab]
      exact ih _
  exact H (some 0)

/-- Witness for C7: `get_tag_name_hash "SVG" = get_tag_name_hash "svg"`. -/
theorem tag_hash_case_insensitive_witness :
    get_tag_name_hash [83, 86, 71] = get_tag_name_hash [115, 118, 103] :=
  tag_hash_case_insensitive [83, 86, 71] [115, 118, 103] (by
    refine List.Forall₂.cons ?_ (List.Forall₂.cons ?_
      (List.Forall₂.cons ?_ List.Forall₂.nil)) <;>
      exact Or.inr (Or.inl (by omega)))

/- ### The precomputed constants -/

/-- Embedding of the `TagNameHash` enum from `src/tag_name_hash.rs`: the
repository precomputes exactly three constants, `Svg`, `Math` and `H1`. -/
inductive TagNameHash where
  | Svg
  | Math
  | H1
  deriving DecidableEq

/-- The explicit `u64` discriminant of each `TagNameHash` variant, as
written in the source (`Svg = 25452u64`, `Math = 596781u64`,
`H1 = 416u64`). -/
def TagNameHash.code : TagNameHash → Nat
  | .Svg => 25452
  | .Math => 596781
  | .H1 => 416

/-- The literal tag name each variant stands for. -/
def TagNameHash.literalName : TagNameHash → Bytes
  | .Svg => [115, 118, 103]
  | .Math => [109, 97, 116, 104]
  | .H1 => [104, 49]

/-- C4 (amended): each precomputed constant of `TagNameHash` equals what
the encoder computes for its literal name — `"svg"` gives 25452, `"math"`
gives 596781 and `"h1"` gives 416.  The enum's constants are only these
three; contrary to the claim, `h2`..`h6` have no precomputed constants. -/
theorem precomputed_constants_match_encoder :
    (∀ v : TagNameHash, get_tag_name_hash v.literalName = some v.code) ∧
    get_tag_name_hash [115, 118, 103] = some 25452 ∧
    get_tag_name_hash [109, 97, 116, 104] = some 596781 ∧
    get_tag_name_hash [104, 49] = some 416 :=
  ⟨fun v => by cases v <;> decide, by decide, by decide, by decide⟩

/-- Counterexample for C4 as stated: no `TagNameHash` variant stands for
the name `"h2"` — the enum precomputes constants for `svg`, `math` and
`h1` only, not for each of `h1`..`h6`. -/
theorem precomputed_constants_cex :
    ¬ ∃ v : TagNameHash, TagNameHash.literalName v = [104, 50] := by
  rintro ⟨v, hv⟩
  cases v <;> simp [TagNameHash.literalName] at hv

/- ### The token data model (`src/tokenizer/outputs/token/mod.rs`) -/

/-- `CharacterToken<'i>`: a contiguous run of text. -/
structure CharacterToken where
  text : Bytes
  deriving DecidableEq

/-- `CommentToken<'i>`. -/
structure CommentToken where
  text : Bytes
  deriving DecidableEq

/-- An attribute view: a (name span, value span) pair. -/
abbrev AttributeView := Bytes × Bytes

/-- The ordered attribute list of a start tag (keys not deduplicated). -/
abbrev Attributes := List AttributeView

/-- `StartTagToken<'i>`. -/
structure StartTagToken where
  name : Bytes
  attributes : Attributes
  self_closing : Bool
  deriving DecidableEq

/-- `EndTagToken<'i>`. -/
structure EndTagToken where
  name : Bytes
  deriving DecidableEq

/-- `DoctypeToken<'i>`: the three span fields are optional, so absence is
representable independently of emptiness; `force_quirks` is a flag. -/
structure DoctypeToken where
  name : Option Bytes
  public_id : Option Bytes
  system_id : Option Bytes
  force_quirks : Bool
  deriving DecidableEq

/-- The `Token<'i>` enum. -/
inductive Token where
  | Character : CharacterToken → Token
  | Comment : CommentToken → Token
  | StartTag : StartTagToken → Token
  | EndTag : EndTagToken → Token
  | Doctype : DoctypeToken → Token
  | Eof : Token
  deriving DecidableEq

/-- `Token::new_character`. -/
def Token.new_character (text : Bytes) : Token :=
  Token.Character ⟨text⟩

/-- `Token::new_comment`. -/
def Token.new_comment (text : Bytes) : Token :=
  Token.Comment ⟨text⟩

/-- `Token::new_start_tag` (the Rust side boxes the parsed attribute
list; here the list is carried directly). -/
def Token.new_start_tag (name : Bytes) (attributes : Attributes)
    (self_closing : Bool) : Token :=
  Token.StartTag ⟨name, attributes, self_closing⟩

/-- `Token::new_end_tag`. -/
def Token.new_end_tag (name : Bytes) : Token :=
  Token.EndTag ⟨name⟩

/-- `Token::new_doctype`. -/
def Token.new_doctype (name public_id system_id : Option Bytes)
    (force_quirks : Bool) : Token :=
  Token.Doctype ⟨name, public_id, system_id, force_quirks⟩

/-- C8: `Token.new_doctype n p s f` yields a `Doctype` token whose
`name`, `public_id`, `system_id` and `force_quirks` accessors return
exactly `n`, `p`, `s` and `f`; in particular a `none` field is
distinguishable from a `some` field holding an empty span. -/
theorem doctype_fields_roundtrip :
    (∀ (n p s : Option Bytes) (f : Bool),
      ∃ d : DoctypeToken, Token.new_doctype n p s f = Token.Doctype d ∧
        d.name = n ∧ d.public_id = p ∧ d.system_id = s ∧ d.force_quirks = f) ∧
    (∀ (p s : Option Bytes) (f : Bool),
      Token.new_doctype none p s f ≠ Token.new_doctype (some ([] : Bytes)) p s f) := by
  constructor
  · intro n p s f
    exact ⟨⟨n, p, s, f⟩, rfl, rfl, rfl, rfl, rfl⟩
  · intro p s f h
    simp only [Token.new_doctype, Token.Doctype.injEq, DoctypeToken.mk.injEq] at h
    exact Option.noConfusion h.1

/- ### The tokenizer and its cumulative raw-span invariant -/

/-- The text-parsing modes named by the spec (Data, RCDATA, RAWTEXT,
ScriptData, PLAINTEXT, CDATA-section). -/
inductive TextParsingMode where
  | Data
  | RCData
  | RawText
  | ScriptData
  | PlainText
  | CDataSection
  deriving DecidableEq

/-- Modelled from the spec: the `LexUnit` type — the unit emitted per
tokenizer step — is described in the spec's data model but its defining
module is not under `src/` (only the token payload and the test harness
are).  Per the spec it carries the exact raw byte span that produced the
unit, an optional parsed token, and the parsing mode active while the
span was consumed. -/
structure LexUnit where
  raw : Bytes
  token : Option Token
  parsing_mode : TextParsingMode

/-- Modelled from the spec: parse the interior of a consumed `<...>` span
into a tag token.  A leading `'/'` (47) gives an end tag; otherwise a
start tag whose name stops at the first space (32) or slash, self-closing
when the interior ends in `'/'`. -/
def tagTokenOfInner (inner : Bytes) : Token :=
  match inner with
  | 47 :: nameRest => Token.new_end_tag (nameRest.takeWhile (fun b => b ≠ 62 && b ≠ 32))
  | _ => Token.new_start_tag
      (inner.takeWhile (fun b => b ≠ 32 && b ≠ 47)) []
      (inner.getLast? == some 47)

/-- Modelled from the spec: the Tokenizer state machine is not under
`src/` (only its test harness and its token output type are), so this is
a design-level tokenizer built from the spec's description: a byte-driven
machine that, in the Data family of states, consumes a maximal markup-free
text run as one `Character` unit, consumes `<` ... `>` as one tag unit,
emits an unterminated trailing `<...` run as character data (error
recovery, not rejection), and terminates with exactly one `Eof` unit.
Every emitted unit's `raw` is exactly the byte span consumed for it. -/
def tokenize (input : Bytes) : List LexUnit :=
  match input with
  | [] => [⟨[], some Token.Eof, TextParsingMode.Data⟩]
  | b :: rest =>
    if b = 60 then
      match hAfter : rest.dropWhile (fun x => x ≠ 62) with
      | 62 :: after' =>
        ⟨60 :: (rest.takeWhile (fun x => x ≠ 62) ++ [62]),
         some (tagTokenOfInner (rest.takeWhile (fun x => x ≠ 62))),
         TextParsingMode.Data⟩ :: tokenize after'
      | _ =>
        [⟨b :: rest, some (Token.new_character (b :: rest)), TextParsingMode.Data⟩,
         ⟨[], some Token.Eof, TextParsingMode.Data⟩]
    else
      ⟨b :: rest.takeWhile (fun x => x ≠ 60),
       some (Token.new_character (b :: rest.takeWhile (fun x => x ≠ 60))),
       TextParsingMode.Data⟩ :: tokenize (rest.dropWhile (fun x => x ≠ 60))
  termination_by input.length
  decreasing_by
  · rename_i tail _hb
    have h1 : (tail.dropWhile (fun x => x ≠ 62)).length ≤ tail.length :=
      (List.dropWhile_suffix _).length_le
    rw [hAfter] at h1
    simp only [List.length_cons] at h1 ⊢
    omega
  · rename_i tail _hb
    have h1 : (tail.dropWhile (fun x => x ≠ 60)).length ≤ tail.length :=
      (List.dropWhile_suffix _).length_le
    simp only [List.length_cons]
    omega

/-- C2: cumulative-raw-string invariant — for every input byte stream,
concatenating the raw spans of all LexUnits emitted by the tokenizer, in
emission order, reproduces the entire input byte-for-byte. -/
theorem cumulative_raw_string (input : Bytes) :
    ((tokenize input).map LexUnit.raw).flatten = input := by
  induction input using tokenize.induct with
  | case1 => simp [tokenize]
  | case2 rest after' hAfter ih =>
    rw [tokenize, if_pos rfl]
    split
    next after2 heq =>
      rw [hAfter] at heq
      injection heq with heq1 heq2
      subst heq2
      simp only [List.map_cons, List.flatten_cons, ih, List.nil_append,
        List.cons_append, List.append_assoc, List.singleton_append]
      have hsplit : rest.takeWhile (fun x => x ≠ 62) ++ 62 :: after' = rest := by
        rw [← hAfter, List.takeWhile_append_dropWhile]
      rw [hsplit]
    next h =>
      exact (h after' hAfter).elim
  | case3 rest hno =>
    rw [tokenize, if_pos rfl]
    split
    next after2 heq => exact (hno after2 heq).elim
    next h => simp
  | case4 b rest hb ih =>
    rw [tokenize, if_neg hb]
    simp only [List.map_cons, List.flatten_cons, ih, List.cons_append]
    rw [List.takeWhile_append_dropWhile]

end CoolThing
